import Mathlib

/-!
# Verification of the MedPredict data-preparation pipeline

Shallow embedding of the core data-preparation and evaluation logic of the
AI AppointmentsPro / MedPredict repository (`functions.js`, `lstm.worker.js`,
`lstm.js`).  JavaScript numbers are modelled as exact rationals (`ℚ`),
JavaScript arrays as `List`, strings as `String` / `List Char`.
`Math.random()`-driven choices are modelled by an oracle `rand : ℕ → ℕ`
reduced modulo the live range, covering every value `Math.floor(Math.random()
* (i + 1))` can take.
-/

/-! ## Data model

One historical appointment record (`config.js` schema, as used by
`functions.js` and `lstm.worker.js`).  Numeric fields are rationals, the
no-show label is a rational compared against `1` exactly as the JavaScript
code compares `r.noshow === 1`. -/

structure Record where
  age : ℚ
  days_wait : ℚ
  gender : ℚ
  sms_received : ℚ
  scholarship : ℚ
  hipertension : ℚ
  diabetes : ℚ
  alcoholism : ℚ
  neighbourhood : String
  noshow : ℚ
deriving DecidableEq, Repr

/-- Min/max bounds for one numeric feature (`configuration.age`,
`configuration.days` in `config.js`). -/
structure Bounds where
  min : ℚ
  max : ℚ
deriving DecidableEq, Repr

/-- The mutable configuration object of `config.js` as read and written by
`initConfiguration`: per-feature bounds plus the list of distinct
neighbourhood names. -/
structure Configuration where
  age : Bounds
  days : Bounds
  hoods : List String
deriving DecidableEq, Repr

/-! ## `initConfiguration` (functions.js lines 53-63)

The source mutates a global `configuration` in a `RAW_DATA.forEach` loop; we
model it as a fold over the record list starting from the ambient
configuration value. -/

/-- One iteration of the `RAW_DATA.forEach` body of `initConfiguration`. -/
def scanRecord (cfg : Configuration) (r : Record) : Configuration :=
  { age := { min := if r.age < cfg.age.min then r.age else cfg.age.min,
             max := if r.age > cfg.age.max then r.age else cfg.age.max },
    days := { min := if r.days_wait < cfg.days.min then r.days_wait else cfg.days.min,
              max := if r.days_wait > cfg.days.max then r.days_wait else cfg.days.max },
    hoods := if cfg.hoods.contains r.neighbourhood then cfg.hoods
             else cfg.hoods ++ [r.neighbourhood] }

/-- `initConfiguration`: scan all records updating the bounds and the
neighbourhood list, then sort the neighbourhood list
(`configuration.hoods.sort()`). -/
def initConfiguration (raw : List Record) (cfg : Configuration) : Configuration :=
  let c := raw.foldl scanRecord cfg
  { c with hoods := c.hoods.mergeSort (· ≤ ·) }

/-! ## Normalization (functions.js lines 68-75) -/

/-- `normalizeData(value, min, max)`: min-max scaling with the degenerate
`min === max → 0.5` policy. -/
def normalizeData (value min max : ℚ) : ℚ :=
  if min = max then 0.5
  else (value - min) / (max - min)

/-- `denormalizeData(value, min, max)`. -/
def denormalizeData (value min max : ℚ) : ℚ :=
  value * (max - min) + min

/-! ## Input vector builder (functions.js lines 80-91) -/

/-- The 8-feature input vector returned by `buildInputVector`. -/
structure InputVector where
  age : ℚ
  days_wait : ℚ
  gender : ℚ
  sms_received : ℚ
  scholarship : ℚ
  hipertension : ℚ
  diabetes : ℚ
  alcoholism : ℚ
deriving DecidableEq, Repr

/-- `buildInputVector(age, days, gender, sms, schl, ht, db, al)`: normalize
the two numeric features against the configuration bounds, pass the six
binary flags through unchanged. -/
def buildInputVector (cfg : Configuration)
    (age days gender sms schl ht db al : ℚ) : InputVector :=
  { age := normalizeData age cfg.age.min cfg.age.max,
    days_wait := normalizeData days cfg.days.min cfg.days.max,
    gender := gender,
    sms_received := sms,
    scholarship := schl,
    hipertension := ht,
    diabetes := db,
    alcoholism := al }

/-! ### Claims C4 and C5 -/

/-- C4: `normalizeData(v, min, max)` equals `(v - min) / (max - min)` when
`min ≠ max`, and equals `0.5` for every `v` whenever `min = max`, so the
division-by-zero branch is never taken. -/
theorem normalizeData_branches (v min max : ℚ) :
    (min ≠ max → normalizeData v min max = (v - min) / (max - min)) ∧
    (min = max → normalizeData v min max = 0.5) := by
  constructor
  · intro h
    simp [normalizeData, h]
  · intro h
    simp [normalizeData, h]

/-- Witness for C4 at `v = 3`, bounds `(1, 5)` and `(4, 4)`. -/
theorem normalizeData_branches_witness :
    normalizeData 3 1 5 = (3 - 1) / (5 - 1) ∧ normalizeData 3 4 4 = 0.5 :=
  ⟨(normalizeData_branches 3 1 5).1 (by norm_num),
   (normalizeData_branches 3 4 4).2 rfl⟩

/-- C5: for `min < max`, `denormalizeData` is a left inverse of
`normalizeData` (exact over rational arithmetic). -/
theorem denormalizeData_normalizeData (v min max : ℚ) (h : min < max) :
    denormalizeData (normalizeData v min max) min max = v := by
  have hne : max - min ≠ 0 := sub_ne_zero.mpr (ne_of_gt h)
  have hmm : min ≠ max := ne_of_lt h
  rw [normalizeData, if_neg hmm, denormalizeData]
  field_simp

/-- Witness for C5 at `v = 7`, `min = 2`, `max = 12`. -/
theorem denormalizeData_normalizeData_witness :
    denormalizeData (normalizeData 7 2 12) 2 12 = 7 :=
  denormalizeData_normalizeData 7 2 12 (by norm_num)

/-! ## Fisher-Yates shuffle

Both `prepareTrainingData` (functions.js lines 122-125) and `buildDataset`
(lstm.worker.js lines 54-57 and 73-76) run the same in-place shuffle:

    for (let i = samples.length - 1; i > 0; i--) {
      const j = Math.floor(Math.random() * (i + 1));
      [samples[i], samples[j]] = [samples[j], samples[i]];
    }

The random draw at loop index `i` is modelled by `rand i % (i + 1)`, which
ranges over exactly the values `Math.floor(Math.random() * (i + 1))` can
take, namely `0 .. i`. -/

/-- Swap the elements at positions `i` and `j` (identity when either index
is out of range; in the source both are always in range). -/
def swapList {α : Type*} (l : List α) (i j : ℕ) : List α :=
  match l[i]?, l[j]? with
  | some a, some b => (l.set i b).set j a
  | _, _ => l

/-- The shuffle loop, counting `i` down from `l.length - 1` to `1`. -/
def fisherYates {α : Type*} (rand : ℕ → ℕ) : ℕ → List α → List α
  | 0, l => l
  | i + 1, l => fisherYates rand i (swapList l (i + 1) (rand (i + 1) % (i + 2)))

/-- The whole in-place shuffle of a list. -/
def shuffleFY {α : Type*} (rand : ℕ → ℕ) (l : List α) : List α :=
  fisherYates rand (l.length - 1) l

/-- Setting index `i` exchanges one occurrence of `l[i]` for one of `b` in
the element counts. -/
theorem count_set_add {α : Type*} [DecidableEq α] (l : List α) (i : ℕ) (b : α)
    (h : i < l.length) (a : α) :
    (l.set i b).count a + (if l.get ⟨i, h⟩ = a then 1 else 0) =
      l.count a + (if b = a then 1 else 0) := by
  induction l generalizing i with
  | nil => simp at h
  | cons c cs ih =>
    cases i with
    | zero => simp [List.count_cons]; omega
    | succ i =>
      have hi : i < cs.length := by simpa using h
      have := ih i hi
      simp only [List.set_cons_succ, List.count_cons, List.get_cons_succ]
      omega

/-- `swapList` permutes the list. -/
theorem swapList_perm {α : Type*} [DecidableEq α] (l : List α) (i j : ℕ) :
    (swapList l i j).Perm l := by
  cases hi : l[i]? with
  | none =>
    have hred : swapList l i j = l := by
      unfold swapList
      rw [hi]
    rw [hred]
  | some x =>
    cases hj : l[j]? with
    | none =>
      have hred : swapList l i j = l := by
        unfold swapList
        rw [hi, hj]
      rw [hred]
    | some y =>
      have hred : swapList l i j = (l.set i y).set j x := by
        unfold swapList
        rw [hi, hj]
      rw [hred]
      obtain ⟨hil, hix⟩ := List.getElem?_eq_some.mp hi
      obtain ⟨hjl, hjy⟩ := List.getElem?_eq_some.mp hj
      have hjl' : j < (l.set i y).length := by simpa [List.length_set] using hjl
      have hget : (l.set i y).get ⟨j, hjl'⟩ = y := by
        by_cases hij : i = j
        · subst hij
          simp [List.getElem_set_self]
        · have := List.getElem_set_ne (l := l) (a := y) hij hjl'
          simp only [List.get_eq_getElem]
          rw [this, hjy]
      rw [List.perm_iff_count]
      intro a
      have e1 := count_set_add l i y hil a
      have e2 := count_set_add (l.set i y) j x hjl' a
      rw [hget] at e2
      have hgi : l.get ⟨i, hil⟩ = x := by
        simp only [List.get_eq_getElem]
        exact hix
      rw [hgi] at e1
      omega

/-- The shuffle loop permutes the list. -/
theorem fisherYates_perm {α : Type*} [DecidableEq α] (rand : ℕ → ℕ) (n : ℕ)
    (l : List α) : (fisherYates rand n l).Perm l := by
  induction n generalizing l with
  | zero => exact List.Perm.refl l
  | succ i ih =>
    exact (ih _).trans (swapList_perm l (i + 1) (rand (i + 1) % (i + 2)))

/-- `shuffleFY` permutes its input. -/
theorem shuffleFY_perm {α : Type*} [DecidableEq α] (rand : ℕ → ℕ)
    (l : List α) : (shuffleFY rand l).Perm l :=
  fisherYates_perm rand (l.length - 1) l

/-- One training sample for the numeric model:
`{input: buildInputVector(...), output: {noshow: r.noshow}}`.  The single
field of the output object is inlined as a rational. -/
structure Sample where
  input : InputVector
  output : ℚ
deriving DecidableEq, Repr

/-- The `entry` built for record `r` inside `prepareTrainingData` (also the
`inp` built inside `evaluateAccuracy` and `predict`). -/
def sampleOf (cfg : Configuration) (r : Record) : Sample :=
  { input := buildInputVector cfg r.age r.days_wait r.gender r.sms_received
      r.scholarship r.hipertension r.diabetes r.alcoholism,
    output := r.noshow }

/-- `prepareTrainingData()`: push one entry per record, push the same entry
`OVERSAMPLE_FACTOR - 1 = 2` additional times when `r.noshow === 1`, then
Fisher-Yates shuffle the sample list.  The global `RAW_DATA` and
`configuration` are passed explicitly; the `Math.random()` stream is the
oracle `rand`. -/
def prepareTrainingData (cfg : Configuration) (rand : ℕ → ℕ)
    (raw : List Record) : List Sample :=
  let samples := raw.foldl
    (fun acc r =>
      let entry := sampleOf cfg r
      let acc1 := acc ++ [entry]
      if r.noshow = 1 then acc1 ++ [entry, entry] else acc1)
    []
  shuffleFY rand samples

/-- The multiset specification of the pre-shuffle sample list: three copies
of each positive record's sample, one copy of each negative record's
sample, in record order. -/
def oversampledSpec (cfg : Configuration) (raw : List Record) : List Sample :=
  raw.flatMap fun r =>
    if r.noshow = 1 then [sampleOf cfg r, sampleOf cfg r, sampleOf cfg r]
    else [sampleOf cfg r]

/-- The push-loop of `prepareTrainingData` builds exactly `oversampledSpec`. -/
theorem prepareTrainingData_foldl_eq (cfg : Configuration) (raw : List Record) :
    ∀ acc : List Sample,
      raw.foldl
        (fun acc r =>
          let entry := sampleOf cfg r
          let acc1 := acc ++ [entry]
          if r.noshow = 1 then acc1 ++ [entry, entry] else acc1)
        acc = acc ++ oversampledSpec cfg raw := by
  induction raw with
  | nil => intro acc; simp [oversampledSpec]
  | cons r rest ih =>
    intro acc
    simp only [List.foldl_cons, oversampledSpec, List.flatMap_cons]
    by_cases h : r.noshow = 1
    · rw [if_pos h, ih, if_pos h]
      simp [oversampledSpec, List.append_assoc]
    · rw [if_neg h, ih, if_neg h]
      simp [oversampledSpec, List.append_assoc]

/-- The length of `oversampledSpec` is `3 p + q`. -/
theorem oversampledSpec_length (cfg : Configuration) (raw : List Record) :
    (oversampledSpec cfg raw).length =
      3 * (raw.filter fun r => r.noshow = 1).length +
        (raw.filter fun r => ¬(r.noshow = 1)).length := by
  induction raw with
  | nil => simp [oversampledSpec]
  | cons r rest ih =>
    simp only [oversampledSpec, List.flatMap_cons, List.length_append,
      List.filter_cons] at *
    by_cases h : r.noshow = 1 <;> simp [h, ih] <;> omega

/-- C1: for every configuration, random stream and record list with `p`
positive (`noshow = 1`) and `q` negative records, `prepareTrainingData`
returns `3 p + q` samples forming a permutation of the multiset holding each
positive record's sample three times and each negative record's sample
once; the empty record list yields the empty sample list. -/
theorem prepareTrainingData_oversamples (cfg : Configuration) (rand : ℕ → ℕ)
    (raw : List Record) :
    (prepareTrainingData cfg rand raw).length =
      3 * (raw.filter fun r => r.noshow = 1).length +
        (raw.filter fun r => ¬(r.noshow = 1)).length ∧
    (prepareTrainingData cfg rand raw).Perm (oversampledSpec cfg raw) ∧
    prepareTrainingData cfg rand [] = [] := by
  have hperm : (prepareTrainingData cfg rand raw).Perm (oversampledSpec cfg raw) := by
    unfold prepareTrainingData
    rw [prepareTrainingData_foldl_eq cfg raw []]
    simpa using shuffleFY_perm rand (oversampledSpec cfg raw)
  refine ⟨?_, hperm, rfl⟩
  rw [hperm.length_eq]
  exact oversampledSpec_length cfg raw

/-! ## Text helpers (lstm.worker.js lines 26-41, lstm.js lines 28-42)

`cleanText(text)` is
`text.toLowerCase().replace(/[^a-z0-9\s]/g, '').replace(/\s+/g, ' ').trim()`.
Strings are modelled through their character lists.  `toLowerCase` is
modelled per character on the ASCII range (the regex classes themselves are
pure ASCII); `\s` is the JavaScript whitespace class, listed by code
point. -/

/-- The JavaScript `\s` character class (also used by `String.prototype.trim`),
decided on the character's code point. -/
def jsIsWs (c : Char) : Bool :=
  c.toNat = 9 || c.toNat = 10 || c.toNat = 11 || c.toNat = 12 || c.toNat = 13 ||
  c.toNat = 32 || c.toNat = 160 || c.toNat = 5760 ||
  (8192 ≤ c.toNat && c.toNat ≤ 8202) ||
  c.toNat = 8232 || c.toNat = 8233 || c.toNat = 8239 || c.toNat = 8287 ||
  c.toNat = 12288 || c.toNat = 65279

/-- Per-character `toLowerCase` on the ASCII range `A-Z`. -/
def jsToLower (c : Char) : Char :=
  if 65 ≤ c.toNat ∧ c.toNat ≤ 90 then Char.ofNat (c.toNat + 32) else c

/-- A character surviving `replace(/[^a-z0-9\s]/g, '')`: in `[a-z]`,
`[0-9]` or `\s`. -/
def isKeptChar (c : Char) : Bool :=
  (97 ≤ c.toNat && c.toNat ≤ 122) || (48 ≤ c.toNat && c.toNat ≤ 57) || jsIsWs c

/-- A character of a fully cleaned string: in `[a-z]`, `[0-9]`, or the
single space. -/
def isCleanChar (c : Char) : Bool :=
  (97 ≤ c.toNat && c.toNat ≤ 122) || (48 ≤ c.toNat && c.toNat ≤ 57) || c == ' '

/-- `replace(/\s+/g, ' ')`: collapse every maximal whitespace run to one
space. -/
def collapseWs : List Char → List Char
  | [] => []
  | c :: cs =>
    if jsIsWs c then ' ' :: collapseWs (cs.dropWhile jsIsWs)
    else c :: collapseWs cs
termination_by l => l.length
decreasing_by
  · have := (List.dropWhile_sublist (l := cs) jsIsWs).length_le
    simp only [List.length_cons]
    omega
  · simp only [List.length_cons]
    omega

/-- `String.prototype.trim()` on a character list. -/
def jsTrim (l : List Char) : List Char :=
  ((l.dropWhile jsIsWs).reverse.dropWhile jsIsWs).reverse

/-- `cleanText` on a character list: lower-case, strip characters outside
`[a-z0-9\s]`, collapse whitespace runs, trim. -/
def cleanTextL (l : List Char) : List Char :=
  jsTrim (collapseWs ((l.map jsToLower).filter isKeptChar))

/-- `cleanText(text)` on strings. -/
def cleanText (s : String) : String :=
  String.mk (cleanTextL s.data)

/-- A clean whitespace character is the space. -/
theorem clean_ws_eq_space {c : Char} (hc : isCleanChar c = true)
    (hw : jsIsWs c = true) : c = ' ' := by
  simp only [isCleanChar, Bool.or_eq_true, Bool.and_eq_true, decide_eq_true_eq,
    beq_iff_eq] at hc
  rcases hc with (h | h) | h
  · exfalso
    simp only [jsIsWs, Bool.or_eq_true, Bool.and_eq_true, decide_eq_true_eq] at hw
    omega
  · exfalso
    simp only [jsIsWs, Bool.or_eq_true, Bool.and_eq_true, decide_eq_true_eq] at hw
    omega
  · exact h

/-- Clean characters are fixed by `jsToLower`. -/
theorem jsToLower_clean {c : Char} (hc : isCleanChar c = true) :
    jsToLower c = c := by
  simp only [isCleanChar, Bool.or_eq_true, Bool.and_eq_true, decide_eq_true_eq,
    beq_iff_eq] at hc
  rcases hc with (h | h) | h
  · rw [jsToLower, if_neg (by omega)]
  · rw [jsToLower, if_neg (by omega)]
  · subst h
    decide

/-- Clean characters survive the `[^a-z0-9\s]` strip. -/
theorem isKeptChar_of_clean {c : Char} (hc : isCleanChar c = true) :
    isKeptChar c = true := by
  simp only [isCleanChar, Bool.or_eq_true, Bool.and_eq_true, decide_eq_true_eq,
    beq_iff_eq] at hc
  simp only [isKeptChar, Bool.or_eq_true, Bool.and_eq_true, decide_eq_true_eq]
  rcases hc with (h | h) | h
  · exact Or.inl (Or.inl h)
  · exact Or.inl (Or.inr h)
  · subst h
    right
    decide

/-- A kept character that is not whitespace is clean. -/
theorem isCleanChar_of_kept_not_ws {c : Char} (hk : isKeptChar c = true)
    (hw : jsIsWs c = false) : isCleanChar c = true := by
  simp only [isKeptChar, Bool.or_eq_true] at hk
  rcases hk with h | h
  · simp only [isCleanChar, Bool.or_eq_true]
    exact Or.inl h
  · rw [h] at hw
    cases hw

set_option maxHeartbeats 2000000 in
/-- Unfolding equation of `collapseWs` on `[]`. -/
theorem collapseWs_nil : collapseWs [] = [] := by
  rw [collapseWs.eq_def]

/-- Unfolding equation of `collapseWs` on a cons. -/
theorem collapseWs_cons (c : Char) (cs : List Char) :
    collapseWs (c :: cs) =
      if jsIsWs c then ' ' :: collapseWs (cs.dropWhile jsIsWs)
      else c :: collapseWs cs := by
  rw [collapseWs.eq_def]

/-- The head surviving `dropWhile jsIsWs` is not whitespace. -/
theorem head_dropWhile_not_ws (l : List Char) {c : Char}
    (h : (l.dropWhile jsIsWs).head? = some c) : jsIsWs c = false := by
  have h2 := List.head?_dropWhile_not jsIsWs l
  rw [h] at h2
  exact h2

/-- Every character of `collapseWs l` is the space or a non-whitespace
character of `l`. -/
theorem mem_collapseWs (l : List Char) :
    ∀ c ∈ collapseWs l, c = ' ' ∨ (c ∈ l ∧ jsIsWs c = false) := by
  induction l using collapseWs.induct with
  | case1 =>
    intro c hc
    rw [collapseWs_nil] at hc
    cases hc
  | case2 c cs h ih =>
    intro a ha
    rw [collapseWs_cons, if_pos h] at ha
    rcases List.mem_cons.mp ha with ha | ha
    · exact Or.inl ha
    · rcases ih a ha with ha' | ⟨hmem, hws⟩
      · exact Or.inl ha'
      · exact Or.inr ⟨List.mem_cons_of_mem c ((List.dropWhile_sublist jsIsWs).mem hmem), hws⟩
  | case3 c cs h ih =>
    intro a ha
    rw [collapseWs_cons, if_neg h] at ha
    rcases List.mem_cons.mp ha with ha | ha
    · subst ha
      exact Or.inr ⟨List.mem_cons_self a cs, Bool.not_eq_true _ ▸ h⟩
    · rcases ih a ha with ha' | ⟨hmem, hws⟩
      · exact Or.inl ha'
      · exact Or.inr ⟨List.mem_cons_of_mem c hmem, hws⟩

/-- If the head of `m` is not whitespace, `collapseWs` keeps it. -/
theorem collapseWs_head?_of_not_ws {m : List Char} {d : Char}
    (hm : m.head? = some d) (hd : jsIsWs d = false) :
    (collapseWs m).head? = some d := by
  cases m with
  | nil => cases hm
  | cons e es =>
    have : e = d := by simpa using hm
    subst this
    rw [collapseWs_cons, if_neg (by simp [hd])]
    rfl

/-- `collapseWs` never leaves two consecutive whitespace characters. -/
theorem chain'_collapseWs (l : List Char) :
    (collapseWs l).Chain' (fun a b => ¬(jsIsWs a = true ∧ jsIsWs b = true)) := by
  induction l using collapseWs.induct with
  | case1 =>
    rw [collapseWs_nil]
    exact List.chain'_nil
  | case2 c cs h ih =>
    rw [collapseWs_cons, if_pos h, List.chain'_cons']
    refine ⟨?_, ih⟩
    intro y hy
    cases hm : cs.dropWhile jsIsWs with
    | nil =>
      rw [hm, collapseWs_nil] at hy
      cases hy
    | cons d ds =>
      have hd : jsIsWs d = false := head_dropWhile_not_ws cs (by rw [hm]; rfl)
      rw [hm] at hy
      rw [collapseWs_head?_of_not_ws (m := d :: ds) rfl hd] at hy
      have hyd : d = y := by simpa using hy
      subst hyd
      intro hcon
      rw [hd] at hcon
      exact absurd hcon.2 (by simp)
  | case3 c cs h ih =>
    rw [collapseWs_cons, if_neg h, List.chain'_cons']
    refine ⟨?_, ih⟩
    intro y _
    intro hcon
    exact h hcon.1

/-- On a list whose whitespace characters are all the single space and never
adjacent, `collapseWs` is the identity. -/
theorem collapseWs_eq_self (l : List Char)
    (hmem : ∀ c ∈ l, isCleanChar c = true)
    (hch : l.Chain' (fun a b => ¬(jsIsWs a = true ∧ jsIsWs b = true))) :
    collapseWs l = l := by
  induction l using collapseWs.induct with
  | case1 => exact collapseWs_nil
  | case2 c cs h ih =>
    have hc : c = ' ' := clean_ws_eq_space (hmem c (List.mem_cons_self c cs)) h
    have hdrop : cs.dropWhile jsIsWs = cs := by
      cases cs with
      | nil => rfl
      | cons d ds =>
        have hd : jsIsWs d = false := by
          have := (List.chain'_cons'.mp hch).1 d rfl
          rw [h] at this
          by_contra hcon
          exact this ⟨rfl, by simpa using hcon⟩
        exact List.dropWhile_cons_of_neg (by simp [hd])
    rw [collapseWs_cons, if_pos h, hc, hdrop]
    rw [hdrop] at ih
    rw [ih (fun a ha => hmem a (List.mem_cons_of_mem c ha)) (List.Chain'.tail hch)]
  | case3 c cs h ih =>
    rw [collapseWs_cons, if_neg h]
    rw [ih (fun a ha => hmem a (List.mem_cons_of_mem c ha)) (List.Chain'.tail hch)]

/-- Membership through `jsTrim`. -/
theorem mem_jsTrim (l : List Char) : ∀ c ∈ jsTrim l, c ∈ l := by
  intro c hc
  unfold jsTrim at hc
  rw [List.mem_reverse] at hc
  have h1 := (List.dropWhile_sublist jsIsWs).mem hc
  rw [List.mem_reverse] at h1
  exact (List.dropWhile_sublist jsIsWs).mem h1

/-- `Chain'` survives `dropWhile`. -/
theorem chain'_dropWhile {α : Type*} {R : α → α → Prop} (p : α → Bool)
    {l : List α} (h : List.Chain' R l) : List.Chain' R (l.dropWhile p) :=
  (List.chain'_append.mp (by rw [List.takeWhile_append_dropWhile]; exact h)).2.1

/-- `Chain'` of a symmetric relation survives `reverse`. -/
theorem chain'_reverse_of {α : Type*} {R : α → α → Prop}
    (hsym : ∀ a b, R a b → R b a) {l : List α} (h : List.Chain' R l) :
    List.Chain' R l.reverse := by
  rw [List.chain'_reverse]
  exact h.imp (fun a b hab => hsym a b hab)

/-- `Chain'` of a symmetric relation survives `jsTrim`. -/
theorem chain'_jsTrim {R : Char → Char → Prop}
    (hsym : ∀ a b, R a b → R b a) {l : List Char} (h : List.Chain' R l) :
    List.Chain' R (jsTrim l) :=
  chain'_reverse_of hsym
    (chain'_dropWhile jsIsWs (chain'_reverse_of hsym (chain'_dropWhile jsIsWs h)))

/-- The last character of `jsTrim l` is not whitespace. -/
theorem jsTrim_getLast_not_ws (l : List Char) {c : Char}
    (h : (jsTrim l).getLast? = some c) : jsIsWs c = false := by
  unfold jsTrim at h
  rw [List.getLast?_reverse] at h
  exact head_dropWhile_not_ws _ h

/-- The head character of `jsTrim l` is not whitespace. -/
theorem jsTrim_head_not_ws (l : List Char) {c : Char}
    (h : (jsTrim l).head? = some c) : jsIsWs c = false := by
  unfold jsTrim at h
  rw [List.head?_reverse] at h
  set m := l.dropWhile jsIsWs with hm
  have hsplit := List.takeWhile_append_dropWhile jsIsWs m.reverse
  have h2 : m.reverse.getLast? = some c := by
    conv_lhs => rw [← hsplit]
    rw [List.getLast?_append, h]
    rfl
  rw [List.getLast?_reverse] at h2
  rw [hm] at h2
  exact head_dropWhile_not_ws l h2

/-- `dropWhile jsIsWs` is the identity when the head is not whitespace. -/
theorem dropWhile_eq_self_of_head (l : List Char)
    (h : ∀ c, l.head? = some c → jsIsWs c = false) :
    l.dropWhile jsIsWs = l := by
  cases l with
  | nil => rfl
  | cons c cs => exact List.dropWhile_cons_of_neg (by simp [h c rfl])

/-- `jsTrim` is the identity when neither end is whitespace. -/
theorem jsTrim_eq_self (l : List Char)
    (hh : ∀ c, l.head? = some c → jsIsWs c = false)
    (hl : ∀ c, l.getLast? = some c → jsIsWs c = false) :
    jsTrim l = l := by
  unfold jsTrim
  rw [dropWhile_eq_self_of_head l hh]
  rw [dropWhile_eq_self_of_head l.reverse
    (by intro c hc; rw [List.head?_reverse] at hc; exact hl c hc)]
  exact List.reverse_reverse l

/-- The invariant of a fully cleaned character list: only `[a-z0-9 ]`
characters, no leading or trailing whitespace, no two adjacent whitespace
characters. -/
def CleanedList (l : List Char) : Prop :=
  (∀ c ∈ l, isCleanChar c = true) ∧
  (∀ c, l.head? = some c → jsIsWs c = false) ∧
  (∀ c, l.getLast? = some c → jsIsWs c = false) ∧
  l.Chain' (fun a b => ¬(jsIsWs a = true ∧ jsIsWs b = true))

/-- `cleanTextL` always produces a cleaned list. -/
theorem cleanTextL_cleaned (l : List Char) : CleanedList (cleanTextL l) := by
  refine ⟨?_, ?_, ?_, ?_⟩
  · intro c hc
    have h1 := mem_jsTrim _ c hc
    rcases mem_collapseWs _ c h1 with h | ⟨hmem, hws⟩
    · subst h
      decide
    · exact isCleanChar_of_kept_not_ws (List.of_mem_filter hmem) hws
  · intro c hc
    exact jsTrim_head_not_ws _ hc
  · intro c hc
    exact jsTrim_getLast_not_ws _ hc
  · exact chain'_jsTrim (fun a b hab h2 => hab ⟨h2.2, h2.1⟩) (chain'_collapseWs _)

/-- Mapping a function that fixes every element is the identity. -/
theorem map_id_of_fixed {α : Type*} (f : α → α) :
    ∀ l : List α, (∀ c ∈ l, f c = c) → l.map f = l := by
  intro l h
  induction l with
  | nil => rfl
  | cons c cs ih =>
    rw [List.map_cons, h c (List.mem_cons_self c cs),
      ih (fun a ha => h a (List.mem_cons_of_mem c ha))]

/-- On a cleaned list, `cleanTextL` is the identity. -/
theorem cleanTextL_eq_self {l : List Char} (h : CleanedList l) :
    cleanTextL l = l := by
  obtain ⟨hmem, hh, hl, hch⟩ := h
  unfold cleanTextL
  rw [map_id_of_fixed jsToLower l (fun c hc => jsToLower_clean (hmem c hc))]
  rw [List.filter_eq_self.mpr (fun c hc => isKeptChar_of_clean (hmem c hc))]
  rw [collapseWs_eq_self l hmem hch]
  exact jsTrim_eq_self l hh hl

/-- C6: `cleanText` is total and idempotent, and its result contains only
`[a-z0-9 ]` characters with no leading space, no trailing space, and no two
consecutive spaces. -/
theorem cleanText_idempotent_clean (s : String) :
    cleanText (cleanText s) = cleanText s ∧
    (∀ c ∈ (cleanText s).data, isCleanChar c = true) ∧
    (cleanText s).data.head? ≠ some ' ' ∧
    (cleanText s).data.getLast? ≠ some ' ' ∧
    (cleanText s).data.Chain' (fun a b => ¬(a = ' ' ∧ b = ' ')) := by
  obtain ⟨hmem, hh, hl, hch⟩ := cleanTextL_cleaned s.data
  refine ⟨?_, hmem, ?_, ?_, ?_⟩
  · exact congrArg String.mk (cleanTextL_eq_self ⟨hmem, hh, hl, hch⟩)
  · intro hcon
    exact absurd (hh ' ' hcon) (by decide)
  · intro hcon
    exact absurd (hl ' ' hcon) (by decide)
  · refine hch.imp (fun a b hab h2 => hab ⟨?_, ?_⟩)
    · rw [h2.1]
      decide
    · rw [h2.2]
      decide

/-! ## Text encoding and dataset building (lstm.worker.js lines 26-79)

`recordToText` renders a record as a compact token string; `buildDataset`
encodes and shuffles all records, splits 70/15/15 by floor-based cut
indices, and oversamples no-show records in the train slice only.
JavaScript number-to-string interpolation is modelled by `toString` on the
rational (all dataset values are integers). -/

/-- `${n}` interpolation of a numeric field. -/
def numStr (q : ℚ) : String := toString q

/-- `recordToText(r)` (lstm.worker.js lines 26-37; mirrored in lstm.js):
token list filtered by truthiness (`filter(Boolean)` drops empty strings)
and joined with single spaces. -/
def recordToText (r : Record) : String :=
  let gender := if r.gender = 1 then "male" else "female"
  let days := if r.days_wait = 0 then "sameday" else "wait" ++ numStr r.days_wait
  let sms := if r.sms_received ≠ 0 then "sms" else "nosms"
  let schl := if r.scholarship ≠ 0 then "scholarship" else ""
  let hypert := if r.hipertension ≠ 0 then "hypertension" else ""
  let diabetes := if r.diabetes ≠ 0 then "diabetes" else ""
  let alcohol := if r.alcoholism ≠ 0 then "alcoholism" else ""
  String.intercalate " "
    (([gender, "age" ++ numStr r.age, days, sms, schl, hypert, diabetes,
        alcohol]).filter (fun t => t ≠ ""))

/-- One element of the `all` array built by `buildDataset`. -/
structure TextSample where
  input : String
  output : String
  noshow : ℚ
deriving DecidableEq, Repr

/-- The per-record mapping of `buildDataset` (lstm.worker.js lines 47-51). -/
def encodeRecord (r : Record) : TextSample :=
  { input := cleanText (recordToText r),
    output := if r.noshow = 1 then "no" else "yes",
    noshow := r.noshow }

/-- `Array.prototype.slice(a, b)` for non-negative in-range indices. -/
def jsSlice {α : Type*} (l : List α) (a b : ℕ) : List α := (l.take b).drop a

/-- `Array.prototype.slice(a)`. -/
def jsSliceFrom {α : Type*} (l : List α) (a : ℕ) : List α := l.drop a

/-- The split step of `buildDataset` (lstm.worker.js lines 59-64):
`trainEnd = floor(n * 0.70)`, `valEnd = floor(n * 0.85)`, and the three
slices `(0, trainEnd)`, `(trainEnd, valEnd)`, `(valEnd)`. -/
def splitStep (all : List TextSample) :
    List TextSample × List TextSample × List TextSample :=
  let trainEnd := (⌊(all.length : ℚ) * 0.70⌋).toNat
  let valEnd := (⌊(all.length : ℚ) * 0.85⌋).toNat
  (jsSlice all 0 trainEnd, jsSlice all trainEnd valEnd, jsSliceFrom all valEnd)

/-- The train/validation/test triple returned by `buildDataset`. -/
structure TextDataset where
  train : List TextSample
  validation : List TextSample
  test : List TextSample
deriving DecidableEq, Repr

/-- `buildDataset(RAW_DATA)` (lstm.worker.js lines 46-79): encode, shuffle,
split, append two extra copies of each no-show train sample, reshuffle the
train slice.  The two `Math.random()` streams are the oracles `rand1` and
`rand2`. -/
def buildDataset (rand1 rand2 : ℕ → ℕ) (raw : List Record) : TextDataset :=
  let all := shuffleFY rand1 (raw.map encodeRecord)
  let parts := splitStep all
  let rawTrain := parts.1
  let train := rawTrain ++ rawTrain.flatMap (fun s => if s.noshow = 1 then [s, s] else [])
  { train := shuffleFY rand2 train, validation := parts.2.1, test := parts.2.2 }

/-- C3: in `buildDataset`, oversampling touches only the train partition:
the returned validation and test lists are exactly the corresponding slices
of the shuffled encoded list, and the returned train list is a permutation
of the base train slice followed by two extra copies of each of its no-show
samples. -/
theorem buildDataset_oversamples_train_only (rand1 rand2 : ℕ → ℕ)
    (raw : List Record) :
    let all := shuffleFY rand1 (raw.map encodeRecord)
    (buildDataset rand1 rand2 raw).validation = (splitStep all).2.1 ∧
    (buildDataset rand1 rand2 raw).test = (splitStep all).2.2 ∧
    ((buildDataset rand1 rand2 raw).train).Perm
      ((splitStep all).1 ++
        (splitStep all).1.flatMap (fun s => if s.noshow = 1 then [s, s] else [])) := by
  intro all
  exact ⟨rfl, rfl, shuffleFY_perm rand2 _⟩

/-! ## Numeric-model evaluation (functions.js lines 173-206)

The external predictor is an opaque function `net : InputVector → ℚ`
standing for `myBrain.net.run` after the scalar `noshow` output has been
extracted.  The `toFixed(1)` string formatting of the reported percentages
is abstracted to the exact rational percentage, with the `'0.0'` guard
value modelled as `0`. -/

/-- The classification policy `predVal > THRESHOLD ? 1 : 0` with
`THRESHOLD = 0.5` (functions.js line 186). -/
def predClass (predVal : ℚ) : ℚ :=
  if predVal > 0.5 then 1 else 0

/-- The counters accumulated by the `RAW_DATA.forEach` loop of
`evaluateAccuracy`. -/
structure EvalCounts where
  correct : ℕ
  tpShow : ℕ
  fnShow : ℕ
  tpNoshow : ℕ
  fnNoshow : ℕ
deriving DecidableEq, Repr

/-- One iteration of the evaluation loop of `evaluateAccuracy`. -/
def evalStep (cfg : Configuration) (net : InputVector → ℚ)
    (c : EvalCounts) (r : Record) : EvalCounts :=
  let predVal := net (sampleOf cfg r).input
  let predC := predClass predVal
  let actual := r.noshow
  if predC = actual then
    if actual = 0 then
      { c with correct := c.correct + 1, tpShow := c.tpShow + 1 }
    else
      { c with correct := c.correct + 1, tpNoshow := c.tpNoshow + 1 }
  else
    if actual = 0 then { c with fnShow := c.fnShow + 1 }
    else { c with fnNoshow := c.fnNoshow + 1 }

/-- The counters of `evaluateAccuracy` over a record list. -/
def evalCountsOf (cfg : Configuration) (net : InputVector → ℚ)
    (raw : List Record) : EvalCounts :=
  raw.foldl (evalStep cfg net) ⟨0, 0, 0, 0, 0⟩

/-- The result object of `evaluateAccuracy` (percent values). -/
structure EvalResult where
  overall : ℚ
  showUpRecall : ℚ
  noshowRecall : ℚ
deriving DecidableEq, Repr

/-- `evaluateAccuracy()` (functions.js lines 173-206), with the zero-denominator
guards on the two recalls. -/
def evaluateAccuracy (cfg : Configuration) (net : InputVector → ℚ)
    (raw : List Record) : EvalResult :=
  let c := evalCountsOf cfg net raw
  { overall := (c.correct : ℚ) / (raw.length : ℚ) * 100,
    showUpRecall :=
      if c.tpShow + c.fnShow > 0 then
        (c.tpShow : ℚ) / ((c.tpShow : ℚ) + (c.fnShow : ℚ)) * 100
      else 0,
    noshowRecall :=
      if c.tpNoshow + c.fnNoshow > 0 then
        (c.tpNoshow : ℚ) / ((c.tpNoshow : ℚ) + (c.fnNoshow : ℚ)) * 100
      else 0 }

/-! ## Text-model evaluation (lstm.worker.js lines 84-104) -/

/-- The text-model label policy:
`out.toLowerCase().trim().startsWith('n') ? 'no' : 'yes'`. -/
def textPredLabel (out : String) : String :=
  if (jsTrim (out.data.map jsToLower)).head? = some 'n' then "no" else "yes"

/-- One iteration of the `set.forEach` loop of `evalSet`. -/
def evalSetStep (net : String → String) (c : EvalCounts) (s : TextSample) :
    EvalCounts :=
  let predLabel := textPredLabel (net s.input)
  if predLabel = s.output then
    if s.output = "yes" then
      { c with correct := c.correct + 1, tpShow := c.tpShow + 1 }
    else
      { c with correct := c.correct + 1, tpNoshow := c.tpNoshow + 1 }
  else
    if s.output = "yes" then { c with fnShow := c.fnShow + 1 }
    else { c with fnNoshow := c.fnNoshow + 1 }

/-- The counters of `evalSet` over a sample list. -/
def evalSetCountsOf (net : String → String) (set : List TextSample) :
    EvalCounts :=
  set.foldl (evalSetStep net) ⟨0, 0, 0, 0, 0⟩

/-- The result object of `evalSet` (percent values). -/
structure TextEvalResult where
  acc : ℚ
  showRecall : ℚ
  noshowRecall : ℚ
deriving DecidableEq, Repr

/-- `evalSet(set)` (lstm.worker.js lines 84-104), with the zero-length and
zero-denominator guards. -/
def evalSet (net : String → String) (set : List TextSample) : TextEvalResult :=
  let c := evalSetCountsOf net set
  { acc :=
      if set.length > 0 then (c.correct : ℚ) / (set.length : ℚ) * 100 else 0,
    showRecall :=
      if c.tpShow + c.fnShow > 0 then
        (c.tpShow : ℚ) / ((c.tpShow : ℚ) + (c.fnShow : ℚ)) * 100
      else 0,
    noshowRecall :=
      if c.tpNoshow + c.fnNoshow > 0 then
        (c.tpNoshow : ℚ) / ((c.tpNoshow : ℚ) + (c.fnNoshow : ℚ)) * 100
      else 0 }

/-! ### Claims C7 and C8 -/

/-- C7: the numeric evaluator's classification is strict: for every
predictor and record, the predicted class is no-show (`1`) iff the
predictor's scalar output exceeds `0.5`, and an output of exactly `0.5` is
classified as show (`0`). -/
theorem predClass_strict_threshold (net : InputVector → ℚ)
    (cfg : Configuration) (r : Record) :
    (predClass (net (sampleOf cfg r).input) = 1 ↔
      net (sampleOf cfg r).input > 0.5) ∧
    (net (sampleOf cfg r).input = 0.5 →
      predClass (net (sampleOf cfg r).input) = 0) := by
  constructor
  · unfold predClass
    split
    · simp_all
    · simp_all
  · intro h
    rw [h]
    norm_num [predClass]

/-- Witness for C7: a predictor returning exactly `0.5` yields predicted
class `0` on a concrete record. -/
theorem predClass_strict_threshold_witness :
    predClass ((fun _ : InputVector => (0.5 : ℚ))
      (sampleOf ⟨⟨0, 100⟩, ⟨0, 60⟩, []⟩
        ⟨30, 5, 1, 0, 0, 0, 0, 0, "CENTRO", 1⟩).input) = 0 :=
  (predClass_strict_threshold (fun _ => (0.5 : ℚ))
    ⟨⟨0, 100⟩, ⟨0, 60⟩, []⟩ ⟨30, 5, 1, 0, 0, 0, 0, 0, "CENTRO", 1⟩).2 rfl

/-- C8: both evaluators guard their zero denominators: each per-class
recall is reported as the `0.0` value when that class has no members, and
`evalSet` on an empty evaluation set reports `0.0` accuracy instead of
dividing by zero. -/
theorem evaluators_zero_denominator_guards (cfg : Configuration)
    (net : InputVector → ℚ) (raw : List Record) (tnet : String → String)
    (set : List TextSample) :
    ((evalCountsOf cfg net raw).tpShow + (evalCountsOf cfg net raw).fnShow = 0 →
      (evaluateAccuracy cfg net raw).showUpRecall = 0) ∧
    ((evalCountsOf cfg net raw).tpNoshow + (evalCountsOf cfg net raw).fnNoshow = 0 →
      (evaluateAccuracy cfg net raw).noshowRecall = 0) ∧
    ((evalSetCountsOf tnet set).tpShow + (evalSetCountsOf tnet set).fnShow = 0 →
      (evalSet tnet set).showRecall = 0) ∧
    ((evalSetCountsOf tnet set).tpNoshow + (evalSetCountsOf tnet set).fnNoshow = 0 →
      (evalSet tnet set).noshowRecall = 0) ∧
    (evalSet tnet []).acc = 0 := by
  refine ⟨?_, ?_, ?_, ?_, ?_⟩
  · intro h
    simp only [evaluateAccuracy]
    rw [if_neg (by omega)]
  · intro h
    simp only [evaluateAccuracy]
    rw [if_neg (by omega)]
  · intro h
    simp only [evalSet]
    rw [if_neg (by omega)]
  · intro h
    simp only [evalSet]
    rw [if_neg (by omega)]
  · simp [evalSet]

/-- Witness for C8: both evaluators on the empty input report all-zero
metrics. -/
theorem evaluators_zero_denominator_guards_witness :
    (evaluateAccuracy ⟨⟨0, 100⟩, ⟨0, 60⟩, []⟩ (fun _ => (0 : ℚ)) []).showUpRecall = 0 ∧
    (evaluateAccuracy ⟨⟨0, 100⟩, ⟨0, 60⟩, []⟩ (fun _ => (0 : ℚ)) []).noshowRecall = 0 ∧
    (evalSet (fun _ => "yes") []).showRecall = 0 ∧
    (evalSet (fun _ => "yes") []).noshowRecall = 0 ∧
    (evalSet (fun _ => "yes") []).acc = 0 := by
  have h := evaluators_zero_denominator_guards ⟨⟨0, 100⟩, ⟨0, 60⟩, []⟩
    (fun _ => (0 : ℚ)) [] (fun _ => "yes") []
  exact ⟨h.1 rfl, h.2.1 rfl, h.2.2.1 rfl, h.2.2.2.1 rfl, h.2.2.2.2⟩

/-! ## LSTM worker management (lstm.js lines 20-96)

The main-thread state is the worker singleton (`worker`, here its presence)
and `lstmState.trained`.  `trainLstm` creates a worker; the `onmessage`
handler sets `trained` on a `done` message and leaves it unchanged on every
other message; `predictFromText` rejects immediately when there is no
worker or `trained` is false. -/

/-- The message types a worker posts back to the main thread. -/
inductive WorkerMsg
  | samples
  | log
  | progress
  | done
  | err
deriving DecidableEq, Repr

/-- Main-thread LSTM state: whether a worker object exists and whether
`lstmState.trained` is set. -/
structure LstmMainState where
  hasWorker : Bool
  trained : Bool
deriving DecidableEq, Repr

/-- Page-load state: `worker = null`, `lstmState.trained = false`. -/
def initialLstmState : LstmMainState :=
  { hasWorker := false, trained := false }

/-- The `worker.onmessage` switch (lstm.js lines 53-65): only a `done`
message sets `lstmState.trained = true`. -/
def onWorkerMessage (st : LstmMainState) (m : WorkerMsg) : LstmMainState :=
  match m with
  | .done => { st with trained := true }
  | _ => st

/-- `trainLstm` (lstm.js lines 47-73): terminate any previous worker and
create a new one; `lstmState.trained` is not reset. -/
def startTrainLstm (st : LstmMainState) : LstmMainState :=
  { hasWorker := true, trained := st.trained }

/-- An observable event on the main thread. -/
inductive LstmEvent
  | startTrain
  | workerMsg (m : WorkerMsg)
deriving DecidableEq, Repr

/-- Main-thread state transition per event. -/
def stepLstm (st : LstmMainState) : LstmEvent → LstmMainState
  | .startTrain => startTrainLstm st
  | .workerMsg m => onWorkerMessage st m

/-- Run a trace of events from the page-load state. -/
def runLstm (evs : List LstmEvent) : LstmMainState :=
  evs.foldl stepLstm initialLstmState

/-- Outcome of a `predictFromText` call: immediate rejection of the
returned promise, or a `predict` message posted to the worker. -/
inductive PredictOutcome
  | rejected (msg : String)
  | requested
deriving DecidableEq, Repr

/-- `predictFromText(rawText)` (lstm.js lines 78-96): reject with
`'LSTM not trained yet'` when `!worker || !lstmState.trained`, otherwise
post the request. -/
def predictFromText (st : LstmMainState) : PredictOutcome :=
  if !st.hasWorker || !st.trained then .rejected "LSTM not trained yet"
  else .requested

/-- Without a `done` message, `trained` stays false along any trace. -/
theorem trained_false_of_no_done (evs : List LstmEvent) :
    ∀ st : LstmMainState, LstmEvent.workerMsg WorkerMsg.done ∉ evs →
      st.trained = false → (evs.foldl stepLstm st).trained = false := by
  induction evs with
  | nil => intro st _ h; exact h
  | cons e rest ih =>
    intro st hmem h
    have he : e ≠ LstmEvent.workerMsg WorkerMsg.done := fun hc =>
      hmem (hc ▸ List.mem_cons_self e rest)
    have hrest : LstmEvent.workerMsg WorkerMsg.done ∉ rest := fun hc =>
      hmem (List.mem_cons_of_mem e hc)
    refine ih (stepLstm st e) hrest ?_
    cases e with
    | startTrain => exact h
    | workerMsg m =>
      cases m with
      | done => exact absurd rfl he
      | samples => exact h
      | log => exact h
      | progress => exact h
      | err => exact h

/-- C9: a `predictFromText` call after any trace of events that contains no
completed-training (`done`) message rejects immediately with the
"not trained" error rather than posting a prediction request. -/
theorem predictFromText_rejects_untrained (evs : List LstmEvent)
    (h : LstmEvent.workerMsg WorkerMsg.done ∉ evs) :
    predictFromText (runLstm evs) = .rejected "LSTM not trained yet" := by
  have ht : (runLstm evs).trained = false :=
    trained_false_of_no_done evs initialLstmState h rfl
  unfold predictFromText
  rw [ht]
  simp

/-- Witness for C9: predicting right after `trainLstm` starts (worker
exists, no `done` yet) is rejected. -/
theorem predictFromText_rejects_untrained_witness :
    predictFromText (runLstm [LstmEvent.startTrain,
      LstmEvent.workerMsg WorkerMsg.progress]) =
      .rejected "LSTM not trained yet" :=
  predictFromText_rejects_untrained
    [LstmEvent.startTrain, LstmEvent.workerMsg WorkerMsg.progress]
    (by decide)

/-! ## Claim C10: feature vectors live in the unit cube -/

/-- Min-max normalization of an in-range value lands in `[0, 1]`. -/
theorem normalizeData_mem_unit {v min max : ℚ} (h1 : min ≤ v) (h2 : v ≤ max) :
    0 ≤ normalizeData v min max ∧ normalizeData v min max ≤ 1 := by
  unfold normalizeData
  by_cases h : min = max
  · rw [if_pos h]
    norm_num
  · rw [if_neg h]
    have hlt : min < max := lt_of_le_of_ne (h1.trans h2) h
    have hpos : 0 < max - min := by linarith
    constructor
    · exact div_nonneg (by linarith) hpos.le
    · rw [div_le_one hpos]
      linarith

/-- After the `initConfiguration` scan, the age and days bounds enclose
every scanned record. -/
theorem scan_bounds_enclose (raw : List Record) :
    ∀ cfg : Configuration, ∀ r ∈ raw,
      (raw.foldl scanRecord cfg).age.min ≤ r.age ∧
      r.age ≤ (raw.foldl scanRecord cfg).age.max ∧
      (raw.foldl scanRecord cfg).days.min ≤ r.days_wait ∧
      r.days_wait ≤ (raw.foldl scanRecord cfg).days.max := by
  have hmono : ∀ (l : List Record) (cfg : Configuration),
      (l.foldl scanRecord cfg).age.min ≤ cfg.age.min ∧
      cfg.age.max ≤ (l.foldl scanRecord cfg).age.max ∧
      (l.foldl scanRecord cfg).days.min ≤ cfg.days.min ∧
      cfg.days.max ≤ (l.foldl scanRecord cfg).days.max := by
    intro l
    induction l with
    | nil => intro cfg; exact ⟨le_refl _, le_refl _, le_refl _, le_refl _⟩
    | cons r rest ih =>
      intro cfg
      obtain ⟨i1, i2, i3, i4⟩ := ih (scanRecord cfg r)
      have s1 : (scanRecord cfg r).age.min ≤ cfg.age.min := by
        unfold scanRecord
        dsimp only
        split <;> first | exact le_refl _ | linarith
      have s2 : cfg.age.max ≤ (scanRecord cfg r).age.max := by
        unfold scanRecord
        dsimp only
        split <;> first | exact le_refl _ | linarith
      have s3 : (scanRecord cfg r).days.min ≤ cfg.days.min := by
        unfold scanRecord
        dsimp only
        split <;> first | exact le_refl _ | linarith
      have s4 : cfg.days.max ≤ (scanRecord cfg r).days.max := by
        unfold scanRecord
        dsimp only
        split <;> first | exact le_refl _ | linarith
      exact ⟨i1.trans s1, s2.trans i2, i3.trans s3, s4.trans i4⟩
  induction raw with
  | nil => intro cfg r hr; cases hr
  | cons q rest ih =>
    intro cfg r hr
    rcases List.mem_cons.mp hr with hr | hr
    · subst hr
      obtain ⟨m1, m2, m3, m4⟩ := hmono rest (scanRecord cfg r)
      have s1 : (scanRecord cfg r).age.min ≤ r.age := by
        unfold scanRecord
        dsimp only
        split
        · exact le_refl _
        · linarith [not_lt.mp (by assumption : ¬ r.age < cfg.age.min)]
      have s2 : r.age ≤ (scanRecord cfg r).age.max := by
        unfold scanRecord
        dsimp only
        split
        · exact le_refl _
        · linarith [not_lt.mp (by assumption : ¬ r.age > cfg.age.max)]
      have s3 : (scanRecord cfg r).days.min ≤ r.days_wait := by
        unfold scanRecord
        dsimp only
        split
        · exact le_refl _
        · linarith [not_lt.mp (by assumption : ¬ r.days_wait < cfg.days.min)]
      have s4 : r.days_wait ≤ (scanRecord cfg r).days.max := by
        unfold scanRecord
        dsimp only
        split
        · exact le_refl _
        · linarith [not_lt.mp (by assumption : ¬ r.days_wait > cfg.days.max)]
      exact ⟨m1.trans s1, s2.trans m2, m3.trans s3, s4.trans m4⟩
    · exact ih (scanRecord cfg q) r hr

/-- `initConfiguration` only reorders the neighbourhood list; the bounds are
those of the scan. -/
theorem initConfiguration_bounds (raw : List Record) (cfg : Configuration) :
    (initConfiguration raw cfg).age = (raw.foldl scanRecord cfg).age ∧
    (initConfiguration raw cfg).days = (raw.foldl scanRecord cfg).days :=
  ⟨rfl, rfl⟩

/-- C10: every feature vector `buildInputVector` builds from a record
scanned by `initConfiguration` (so its age and days lie within the computed
bounds) whose six flags are binary has all 8 components in `[0, 1]`: the two
normalized components land in `[0, 1]` (with `0.5` in the degenerate
`min = max` case) and the six flags pass through unchanged. -/
theorem buildInputVector_unit_cube (cfg0 : Configuration) (raw : List Record)
    (r : Record) (hr : r ∈ raw)
    (hg : r.gender = 0 ∨ r.gender = 1)
    (hs : r.sms_received = 0 ∨ r.sms_received = 1)
    (hc : r.scholarship = 0 ∨ r.scholarship = 1)
    (hh : r.hipertension = 0 ∨ r.hipertension = 1)
    (hd : r.diabetes = 0 ∨ r.diabetes = 1)
    (ha : r.alcoholism = 0 ∨ r.alcoholism = 1) :
    let v := buildInputVector (initConfiguration raw cfg0) r.age r.days_wait
      r.gender r.sms_received r.scholarship r.hipertension r.diabetes
      r.alcoholism
    (0 ≤ v.age ∧ v.age ≤ 1) ∧ (0 ≤ v.days_wait ∧ v.days_wait ≤ 1) ∧
    (0 ≤ v.gender ∧ v.gender ≤ 1) ∧ (0 ≤ v.sms_received ∧ v.sms_received ≤ 1) ∧
    (0 ≤ v.scholarship ∧ v.scholarship ≤ 1) ∧
    (0 ≤ v.hipertension ∧ v.hipertension ≤ 1) ∧
    (0 ≤ v.diabetes ∧ v.diabetes ≤ 1) ∧
    (0 ≤ v.alcoholism ∧ v.alcoholism ≤ 1) := by
  intro v
  obtain ⟨b1, b2, b3, b4⟩ := scan_bounds_enclose raw cfg0 r hr
  obtain ⟨e1, e2⟩ := initConfiguration_bounds raw cfg0
  have hage : 0 ≤ v.age ∧ v.age ≤ 1 := by
    show 0 ≤ normalizeData r.age (initConfiguration raw cfg0).age.min
        (initConfiguration raw cfg0).age.max ∧ _
    rw [e1]
    exact normalizeData_mem_unit b1 b2
  have hdays : 0 ≤ v.days_wait ∧ v.days_wait ≤ 1 := by
    show 0 ≤ normalizeData r.days_wait (initConfiguration raw cfg0).days.min
        (initConfiguration raw cfg0).days.max ∧ _
    rw [e2]
    exact normalizeData_mem_unit b3 b4
  refine ⟨hage, hdays, ?_, ?_, ?_, ?_, ?_, ?_⟩
  · rcases hg with h | h <;> rw [show v.gender = r.gender from rfl, h] <;> norm_num
  · rcases hs with h | h <;>
      rw [show v.sms_received = r.sms_received from rfl, h] <;> norm_num
  · rcases hc with h | h <;>
      rw [show v.scholarship = r.scholarship from rfl, h] <;> norm_num
  · rcases hh with h | h <;>
      rw [show v.hipertension = r.hipertension from rfl, h] <;> norm_num
  · rcases hd with h | h <;>
      rw [show v.diabetes = r.diabetes from rfl, h] <;> norm_num
  · rcases ha with h | h <;>
      rw [show v.alcoholism = r.alcoholism from rfl, h] <;> norm_num

/-- Witness for C10 on a concrete record and seed configuration. -/
theorem buildInputVector_unit_cube_witness :
    let r : Record := ⟨45, 10, 1, 0, 1, 0, 0, 0, "JARDIM", 1⟩
    let v := buildInputVector (initConfiguration [r] ⟨⟨0, 0⟩, ⟨0, 0⟩, []⟩)
      r.age r.days_wait r.gender r.sms_received r.scholarship r.hipertension
      r.diabetes r.alcoholism
    (0 ≤ v.age ∧ v.age ≤ 1) ∧ (0 ≤ v.days_wait ∧ v.days_wait ≤ 1) ∧
    (0 ≤ v.gender ∧ v.gender ≤ 1) ∧ (0 ≤ v.sms_received ∧ v.sms_received ≤ 1) ∧
    (0 ≤ v.scholarship ∧ v.scholarship ≤ 1) ∧
    (0 ≤ v.hipertension ∧ v.hipertension ≤ 1) ∧
    (0 ≤ v.diabetes ∧ v.diabetes ≤ 1) ∧
    (0 ≤ v.alcoholism ∧ v.alcoholism ≤ 1) :=
  buildInputVector_unit_cube ⟨⟨0, 0⟩, ⟨0, 0⟩, []⟩
    [⟨45, 10, 1, 0, 1, 0, 0, 0, "JARDIM", 1⟩]
    ⟨45, 10, 1, 0, 1, 0, 0, 0, "JARDIM", 1⟩
    (List.mem_singleton.mpr rfl)
    (Or.inr rfl) (Or.inl rfl) (Or.inr rfl) (Or.inl rfl) (Or.inl rfl)
    (Or.inl rfl)
